import Mathlib

/-!
Shallow embedding of the Connect Four program (`src/main.rs`) and proofs
about it.  The board is the 6×7 grid `board: [[i8; COLS]; ROWS]` of the
Rust source; a cell holds one of the `i8` constants `BOT = -1`,
`EMPTY = 0`, `PLAYER = 1`.  We model the grid as a total function
`Nat → Nat → Int` (row, then column, row 0 = top); all in-range code
paths only ever read or write indices below `ROWS`/`COLS`.  Rust's
panicking out-of-range indexing in `drop_piece` is modelled by an
`Option` result (`none` = panic).
-/

namespace ConnectFour

/-- `ROWS` from the source. -/
def ROWS : Nat := 6

/-- `COLS` from the source. -/
def COLS : Nat := 7

/-- The `i8` constant `BOT = -1`. -/
def BOT : Int := -1

/-- The `i8` constant `EMPTY = 0`. -/
def EMPTY : Int := 0

/-- The `i8` constant `PLAYER = 1`. -/
def PLAYER : Int := 1

/-- The board `[[i8; COLS]; ROWS]`, as a total function (row, col) ↦ cell.
Only indices with row < `ROWS` and col < `COLS` are ever accessed by the
embedded operations. -/
def Board : Type := Nat → Nat → Int

/-- `ConnectFour::new`: the all-`EMPTY` grid. -/
def new_board : Board := fun _ _ => EMPTY

/-- Writing one cell of the grid (`self.board[row][col] = v`). -/
def setCell (g : Board) (row col : Nat) (v : Int) : Board :=
  fun r c => if r = row ∧ c = col then v else g r c

/-- `ConnectFour::get_valid_moves`: the columns, in ascending order, whose
top cell (row 0) is `EMPTY`. -/
def get_valid_moves (g : Board) : List Nat :=
  (List.range COLS).filter fun col => g 0 col == EMPTY

/-- `ConnectFour::check_win`: scans horizontal, vertical and both diagonal
windows of four cells; the nested `for` loops with early `return true` are
rendered with `List.any` / `List.all`. -/
def check_win (g : Board) (player : Int) : Bool :=
  ((List.range ROWS).any fun row => (List.range (COLS - 3)).any fun col =>
      (List.range 4).all fun i => g row (col + i) == player) ||
  ((List.range (ROWS - 3)).any fun row => (List.range COLS).any fun col =>
      (List.range 4).all fun i => g (row + i) col == player) ||
  ((List.range (ROWS - 3)).any fun row => (List.range (COLS - 3)).any fun col =>
      (((List.range 4).all fun i => g (row + i) (col + i) == player) ||
       ((List.range 4).all fun i => g (row + 3 - i) (col + i) == player)))

/-- The row scan `(0..ROWS).rev().find(|&row| self.board[row][col] == EMPTY)`
shared by `drop_piece`, `minimax` and `get_best_move`: the bottom-most
`EMPTY` row of a column, if any. -/
def findRow (g : Board) (col : Nat) : Option Nat :=
  (List.range ROWS).reverse.find? fun row => g row col == EMPTY

/-- `ConnectFour::drop_piece`.  The Rust loop indexes `self.board[row][col]`
for `row = 5, 4, …, 0`; with `col ≥ COLS` the very first access panics
(index out of bounds), which we model as `none`.  Otherwise the result is
the updated board together with the returned boolean. -/
def drop_piece (g : Board) (col : Nat) (piece : Int) : Option (Board × Bool) :=
  if col < COLS then
    match findRow g col with
    | some row => some (setCell g row col piece, true)
    | none => some (g, false)
  else
    none

/-- `i32::MIN`, the sentinel used by `minimax` / `get_best_move`. -/
def intMin : Int := -2147483648

/-- `i32::MAX`, the sentinel used by `minimax`. -/
def intMax : Int := 2147483647

/-- The maximizing `for col in valid_moves` loop of `BotPlayer::minimax`
(piece `BOT`, tracking `max_score` and `alpha`, `break` once
`beta <= alpha`).  The `&mut ConnectFour` is threaded explicitly: the
function returns the score together with the final board.  `recur` is the
recursive call `self.minimax(game, depth - 1, alpha, beta, false)`. -/
def maxLoop (reward : Int) (recur : Board → Int → Int → Int × Board) :
    Board → Int → Int → Int → List Nat → Int × Board
  | g, _, _, maxScore, [] => (maxScore, g)
  | g, alpha, beta, maxScore, col :: rest =>
    match findRow g col with
    | none => maxLoop reward recur g alpha beta maxScore rest
    | some row =>
      let g1 := setCell g row col BOT
      let sb : Int × Board :=
        if check_win g1 BOT then (reward, g1) else recur g1 alpha beta
      let g2 := setCell sb.2 row col EMPTY
      let maxScore1 := max maxScore sb.1
      let alpha1 := max alpha sb.1
      if beta ≤ alpha1 then (maxScore1, g2)
      else maxLoop reward recur g2 alpha1 beta maxScore1 rest

/-- The minimizing loop of `BotPlayer::minimax` (piece `PLAYER`, score
`-reward` on an immediate `PLAYER` win, tracking `min_score` and `beta`,
`break` once `beta <= alpha`). -/
def minLoop (reward : Int) (recur : Board → Int → Int → Int × Board) :
    Board → Int → Int → Int → List Nat → Int × Board
  | g, _, _, minScore, [] => (minScore, g)
  | g, alpha, beta, minScore, col :: rest =>
    match findRow g col with
    | none => minLoop reward recur g alpha beta minScore rest
    | some row =>
      let g1 := setCell g row col PLAYER
      let sb : Int × Board :=
        if check_win g1 PLAYER then (-reward, g1) else recur g1 alpha beta
      let g2 := setCell sb.2 row col EMPTY
      let minScore1 := min minScore sb.1
      let beta1 := min beta sb.1
      if beta1 ≤ alpha then (minScore1, g2)
      else minLoop reward recur g2 alpha beta1 minScore1 rest

/-- `BotPlayer::minimax`.  `reward` is the field set to `100` by
`BotPlayer::new`; the depth is a natural number (`main` constructs the bot
with `max_depth = 4`).  The mutable board is threaded: the second
component of the result is the board state when the call returns.
If there are no valid moves or `depth == 0` the score is `0`. -/
def minimax (reward : Int) : Nat → Board → Int → Int → Bool → Int × Board
  | 0, g, _, _, _ => (0, g)
  | d + 1, g, alpha, beta, isMax =>
    if get_valid_moves g = [] then (0, g)
    else if isMax then
      maxLoop reward (fun g1 a b => minimax reward d g1 a b false)
        g alpha beta intMin (get_valid_moves g)
    else
      minLoop reward (fun g1 a b => minimax reward d g1 a b true)
        g alpha beta intMax (get_valid_moves g)

/-- The `for col in game.get_valid_moves()` loop of
`BotPlayer::get_best_move`, threading `game_clone`, `best_score` and
`best_moves`. -/
def bestMoveAux (reward : Int) (maxDepth : Nat) :
    Board → Int → List Nat → List Nat → Int × List Nat × Board
  | clone, bestScore, bestMoves, [] => (bestScore, bestMoves, clone)
  | clone, bestScore, bestMoves, col :: rest =>
    match findRow clone col with
    | none => bestMoveAux reward maxDepth clone bestScore bestMoves rest
    | some row =>
      let g1 := setCell clone row col BOT
      let sb := minimax reward maxDepth g1 intMin intMax false
      let g2 := setCell sb.2 row col EMPTY
      if bestScore < sb.1 then bestMoveAux reward maxDepth g2 sb.1 [col] rest
      else if sb.1 = bestScore then
        bestMoveAux reward maxDepth g2 bestScore (bestMoves ++ [col]) rest
      else bestMoveAux reward maxDepth g2 bestScore bestMoves rest

/-- `BotPlayer::get_best_move`, up to the final tie-break: the Rust
function ends with `best_moves.choose(&mut rand::rng()).cloned()`, which
returns `Some` of a uniformly random element of `best_moves` when the
vector is non-empty and `None` otherwise.  We model the deterministic
part: the `best_moves` vector itself (so the Rust call returns a column
iff this list is non-empty, and any column it returns belongs to it). -/
def get_best_move (reward : Int) (maxDepth : Nat) (g : Board) : List Nat :=
  (bestMoveAux reward maxDepth g intMin [] (get_valid_moves g)).2.1

/-- The per-column top-level score used by `get_best_move`: drop a `BOT`
piece on the column's bottom-most empty row and run `minimax` at
`maxDepth` with the full window and the opponent to move.  (For a legal
column `findRow` always succeeds; the `none` branch is never used.) -/
def topScore (reward : Int) (maxDepth : Nat) (g : Board) (col : Nat) : Int :=
  match findRow g col with
  | some row => (minimax reward maxDepth (setCell g row col BOT) intMin intMax false).1
  | none => 0

/-- Pure score of the maximizing loop: `maxLoop` with the board threading
erased (each iteration restores the board, so every child starts from the
same grid `g`). -/
def abMaxLoop (reward : Int) (recur : Board → Int → Int → Int) (g : Board) :
    Int → Int → Int → List Nat → Int
  | _, _, maxScore, [] => maxScore
  | alpha, beta, maxScore, col :: rest =>
    match findRow g col with
    | none => abMaxLoop reward recur g alpha beta maxScore rest
    | some row =>
      let s : Int :=
        if check_win (setCell g row col BOT) BOT then reward
        else recur (setCell g row col BOT) alpha beta
      if beta ≤ max alpha s then max maxScore s
      else abMaxLoop reward recur g (max alpha s) beta (max maxScore s) rest

/-- Pure score of the minimizing loop. -/
def abMinLoop (reward : Int) (recur : Board → Int → Int → Int) (g : Board) :
    Int → Int → Int → List Nat → Int
  | _, _, minScore, [] => minScore
  | alpha, beta, minScore, col :: rest =>
    match findRow g col with
    | none => abMinLoop reward recur g alpha beta minScore rest
    | some row =>
      let s : Int :=
        if check_win (setCell g row col PLAYER) PLAYER then -reward
        else recur (setCell g row col PLAYER) alpha beta
      if min beta s ≤ alpha then min minScore s
      else abMinLoop reward recur g alpha (min beta s) (min minScore s) rest

/-- Pure score of `minimax` (the board threading erased). -/
def abScore (reward : Int) : Nat → Board → Int → Int → Bool → Int
  | 0, _, _, _, _ => 0
  | d + 1, g, alpha, beta, isMax =>
    if get_valid_moves g = [] then 0
    else if isMax then
      abMaxLoop reward (fun g1 a b => abScore reward d g1 a b false)
        g alpha beta intMin (get_valid_moves g)
    else
      abMinLoop reward (fun g1 a b => abScore reward d g1 a b true)
        g alpha beta intMax (get_valid_moves g)

/-- Plain depth-limited minimax without pruning, written from the spec's
words ("plain depth-limited minimax without pruning on the same
position"): the same recursion as `minimax` with the alpha-beta window
and the `break` removed, taking the maximum (resp. minimum) over all
branches. -/
def plain_minimax (reward : Int) : Nat → Board → Bool → Int
  | 0, _, _ => 0
  | d + 1, g, isMax =>
    if get_valid_moves g = [] then 0
    else if isMax then
      (get_valid_moves g).foldl (fun best col =>
        match findRow g col with
        | none => best
        | some row =>
          max best (if check_win (setCell g row col BOT) BOT then reward
                    else plain_minimax reward d (setCell g row col BOT) false)) intMin
    else
      (get_valid_moves g).foldl (fun best col =>
        match findRow g col with
        | none => best
        | some row =>
          min best (if check_win (setCell g row col PLAYER) PLAYER then -reward
                    else plain_minimax reward d (setCell g row col PLAYER) true)) intMax

/-- The glyph function of `impl fmt::Display for ConnectFour` (the Rust
`match` with arms `BOT => "x"`, `EMPTY => "."`, `PLAYER => "o"`,
`_ => " "`). -/
def symbol (val : Int) : String :=
  if val = BOT then "x"
  else if val = EMPTY then "."
  else if val = PLAYER then "o"
  else " "

/-- The `Display` implementation: for every row, ` {glyph}` is written for
each cell, followed by a newline.  The `Formatter` accumulation is string
concatenation. -/
def render (g : Board) : String :=
  String.join ((List.range ROWS).map fun row =>
    String.join ((List.range COLS).map fun col => " " ++ symbol (g row col)) ++ "\n")

/-- Spec-side predicate for claim C2: some horizontal, vertical,
down-right-diagonal or up-right-diagonal run of four consecutive cells of
the grid is entirely occupied by `player`. -/
def HasLineOfFour (g : Board) (player : Int) : Prop :=
  (∃ row col, row < ROWS ∧ col + 3 < COLS ∧ ∀ i < 4, g row (col + i) = player) ∨
  (∃ row col, row + 3 < ROWS ∧ col < COLS ∧ ∀ i < 4, g (row + i) col = player) ∨
  (∃ row col, row + 3 < ROWS ∧ col + 3 < COLS ∧ ∀ i < 4, g (row + i) (col + i) = player) ∨
  (∃ row col, row + 3 < ROWS ∧ col + 3 < COLS ∧ ∀ i < 4, g (row + 3 - i) (col + i) = player)

/-- Spec-side gravity invariant: in every in-range column, the occupied
cells are upward closed towards the bottom (row indices grow downwards),
i.e. no piece floats above an empty cell. -/
def Gravity (g : Board) : Prop :=
  ∀ col < COLS, ∀ r1 r2 : Nat, r1 ≤ r2 → r2 < ROWS →
    g r1 col ≠ EMPTY → g r2 col ≠ EMPTY

/-- The boards reachable from `new_board` by (non-panicking) `drop_piece`
calls — the sole mutator of the Rust struct. -/
inductive Reachable : Board → Prop
  | init : Reachable new_board
  | step {g g' : Board} {col : Nat} {piece : Int} {b : Bool} :
      Reachable g → drop_piece g col piece = some (g', b) → Reachable g'

/-- Concrete position for claim C8: `BOT` (x) occupies the bottom row of
columns 0, 1, 2 and `PLAYER` (o) has a vertical three in rows 3–5 of
column 4.  `BOT` to move has an immediate win in column 3, while `PLAYER`
threatens an immediate win in column 4. -/
def c8Board : Board :=
  setCell (setCell (setCell (setCell (setCell (setCell new_board
    5 0 BOT) 5 1 BOT) 5 2 BOT) 5 4 PLAYER) 4 4 PLAYER) 3 4 PLAYER

/-- Generic accumulated fold over the per-column branch values (`op` is
`max` at maximizing nodes and `min` at minimizing nodes; `q col = none`
when the column has no empty row and is skipped).  Used to reason about
the pruning-free folds of `plain_minimax`. -/
def optFold (op : Int → Int → Int) (q : Nat → Option Int) : Int → List Nat → Int
  | best, [] => best
  | best, c :: rest =>
    match q c with
    | none => optFold op q best rest
    | some v => optFold op q (op best v) rest

/-- The fail-soft alpha-beta relation (Knuth–Moore): the pruned score `G`
bounds the true score `F` from above when it fails low (`G ≤ alpha`),
bounds it from below when it fails high (`beta ≤ G`), and equals it when
it lands strictly inside the window. -/
abbrev kmTriple (G F alpha beta : Int) : Prop :=
  (G ≤ alpha → F ≤ G) ∧ (alpha < G → G < beta → G = F) ∧ (beta ≤ G → G ≤ F)

/-! ### Basic lemmas about the row scan and cell updates -/

theorem find?_reverse_range_eq_some {p : Nat → Bool} {n r : Nat}
    (h : (List.range n).reverse.find? p = some r) :
    r < n ∧ p r = true ∧ ∀ r', r < r' → r' < n → p r' = false := by
  induction n with
  | zero => simp [List.range_zero] at h
  | succ n ih =>
    rw [List.range_succ, List.reverse_append] at h
    simp only [List.reverse_singleton, List.singleton_append] at h
    by_cases hp : p n
    · rw [List.find?_cons_of_pos _ hp] at h
      obtain rfl : n = r := by simpa using h
      exact ⟨Nat.lt_succ_self n, hp, fun r' h1 h2 => absurd h2 (by omega)⟩
    · rw [List.find?_cons_of_neg _ hp] at h
      obtain ⟨h1, h2, h3⟩ := ih h
      refine ⟨Nat.lt_succ_of_lt h1, h2, fun r' hr1 hr2 => ?_⟩
      rcases Nat.lt_succ_iff_lt_or_eq.mp hr2 with h4 | rfl
      · exact h3 r' hr1 h4
      · exact Bool.eq_false_iff.mpr hp

theorem find?_reverse_range_eq_none {p : Nat → Bool} {n : Nat}
    (h : (List.range n).reverse.find? p = none) : ∀ r < n, p r = false := by
  intro r hr
  have := List.find?_eq_none.mp h r (by simpa using hr)
  simpa using this

theorem findRow_some {g : Board} {col row : Nat} (h : findRow g col = some row) :
    row < ROWS ∧ g row col = EMPTY ∧ ∀ r', row < r' → r' < ROWS → g r' col ≠ EMPTY := by
  obtain ⟨h1, h2, h3⟩ := find?_reverse_range_eq_some h
  refine ⟨h1, by simpa using h2, fun r' hr1 hr2 => ?_⟩
  have := h3 r' hr1 hr2
  simpa using this

theorem findRow_none {g : Board} {col : Nat} (h : findRow g col = none) :
    ∀ r < ROWS, g r col ≠ EMPTY := by
  intro r hr
  have := find?_reverse_range_eq_none h r hr
  simpa using this

theorem findRow_isSome_of_top_empty {g : Board} {col : Nat} (h : g 0 col = EMPTY) :
    ∃ row, findRow g col = some row := by
  cases hf : findRow g col with
  | none => exact absurd h (findRow_none hf 0 (by norm_num [ROWS]))
  | some row => exact ⟨row, rfl⟩

theorem setCell_self (g : Board) (row col : Nat) (v : Int) :
    setCell g row col v row col = v := by
  simp [setCell]

theorem setCell_of_ne (g : Board) (row col : Nat) (v : Int) {r c : Nat}
    (h : ¬(r = row ∧ c = col)) : setCell g row col v r c = g r c := by
  simp [setCell, h]

theorem setCell_cancel {g : Board} {row col : Nat} (v : Int) (h : g row col = EMPTY) :
    setCell (setCell g row col v) row col EMPTY = g := by
  funext r c
  by_cases hc : r = row ∧ c = col
  · obtain ⟨rfl, rfl⟩ := hc
    simp [setCell, h]
  · simp [setCell, hc]

/-! ### drop_piece: claims C4 and C5 -/

/-- C4: for every board, every in-range column and every piece,
`drop_piece` never panics; if the column's bottom-most empty cell exists
— in particular whenever the top cell is `EMPTY` — the piece is placed
there (the lowest `EMPTY` cell, everything below it being occupied) and
`true` is returned; if the column is full, `false` is returned and the
board is completely unchanged. -/
theorem drop_piece_in_range_spec (g : Board) (col : Nat) (piece : Int) (hcol : col < COLS) :
    (drop_piece g col piece).isSome = true ∧
    (g 0 col = EMPTY →
      ∃ row, row < ROWS ∧ g row col = EMPTY ∧
        (∀ r', row < r' → r' < ROWS → g r' col ≠ EMPTY) ∧
        drop_piece g col piece = some (setCell g row col piece, true)) ∧
    ((∀ r < ROWS, g r col ≠ EMPTY) → drop_piece g col piece = some (g, false)) := by
  refine ⟨?_, ?_, ?_⟩
  · unfold drop_piece
    rw [if_pos hcol]
    cases hf : findRow g col <;> simp
  · intro htop
    obtain ⟨row, hf⟩ := findRow_isSome_of_top_empty htop
    obtain ⟨h1, h2, h3⟩ := findRow_some hf
    exact ⟨row, h1, h2, h3, by simp [drop_piece, hcol, hf]⟩
  · intro hfull
    have hnone : findRow g col = none := by
      cases hf : findRow g col with
      | none => rfl
      | some row =>
        obtain ⟨h1, h2, _⟩ := findRow_some hf
        exact absurd h2 (hfull row h1)
    simp [drop_piece, hcol, hnone]

/-- Witness for C4 at a concrete input: dropping on column 0 of the empty
board does not panic. -/
theorem drop_piece_in_range_spec_witness : (drop_piece new_board 0 PLAYER).isSome = true :=
  (drop_piece_in_range_spec new_board 0 PLAYER (by decide)).1

/-- Counterexample for C5: with the out-of-range column 7 the Rust loop's
very first index access `self.board[5][7]` is out of bounds, so the call
panics (modelled by `none`) instead of signalling failure through its
boolean result. -/
theorem drop_piece_out_of_range_panics : drop_piece new_board 7 PLAYER = none := rfl

/-- C5 (amended): `drop_piece` is total on the in-range columns 0–6,
signalling an invalid (full-column) move via its boolean result; a column
outside that range makes the code panic on an out-of-bounds index. -/
theorem drop_piece_total_on_legal_columns (g : Board) (col : Nat) (piece : Int)
    (hcol : col < COLS) :
    (drop_piece g col piece).isSome = true ∧
    ((∀ r < ROWS, g r col ≠ EMPTY) → drop_piece g col piece = some (g, false)) := by
  obtain ⟨h1, _, h3⟩ := drop_piece_in_range_spec g col piece hcol
  exact ⟨h1, h3⟩

/-- Witness for the amended C5 at a concrete input. -/
theorem drop_piece_total_on_legal_columns_witness :
    (drop_piece new_board 3 BOT).isSome = true :=
  (drop_piece_total_on_legal_columns new_board 3 BOT (by decide)).1

/-! ### Gravity invariant: claim C7 -/

theorem gravity_new_board : Gravity new_board := by
  intro c _ r1 r2 _ _ h1
  exact absurd rfl h1

theorem gravity_step {g g' : Board} {col : Nat} {piece : Int} {b : Bool}
    (hg : Gravity g) (h : drop_piece g col piece = some (g', b)) : Gravity g' := by
  unfold drop_piece at h
  by_cases hcol : col < COLS
  · rw [if_pos hcol] at h
    cases hf : findRow g col with
    | none =>
      rw [hf] at h
      obtain ⟨rfl, rfl⟩ : g = g' ∧ false = b := by simpa using h
      exact hg
    | some row =>
      rw [hf] at h
      obtain ⟨h1, rfl⟩ : setCell g row col piece = g' ∧ true = b := by simpa using h
      subst h1
      obtain ⟨hrow, hemp, hbelow⟩ := findRow_some hf
      intro c hc r1 r2 h12 hr2 hne1
      by_cases hcc : c = col
      · subst hcc
        by_cases h2r : row < r2
        · rw [setCell_of_ne]
          · exact hbelow r2 h2r hr2
          · rintro ⟨rfl, -⟩
            omega
        · by_cases h2e : r2 = row
          · subst h2e
            rcases Nat.lt_or_ge r1 r2 with hlt | hge
            · have hne1' : g r1 c ≠ EMPTY := by
                rwa [setCell_of_ne] at hne1
                rintro ⟨rfl, -⟩
                omega
              exact absurd hemp (hg c hc r1 r2 h12 hr2 hne1')
            · have : r1 = r2 := by omega
              subst this
              exact hne1
          · have hne1' : g r1 c ≠ EMPTY := by
              rwa [setCell_of_ne] at hne1
              rintro ⟨rfl, -⟩
              omega
            rw [setCell_of_ne]
            · exact hg c hc r1 r2 h12 hr2 hne1'
            · rintro ⟨rfl, -⟩
              omega
      · have hne1' : g r1 c ≠ EMPTY := by
          rwa [setCell_of_ne] at hne1
          rintro ⟨-, rfl⟩
          exact hcc rfl
        rw [setCell_of_ne]
        · exact hg c hc r1 r2 h12 hr2 hne1'
        · rintro ⟨-, rfl⟩
          exact hcc rfl
  · rw [if_neg hcol] at h
    exact absurd h (by simp)

/-- C7: every board reachable from the fresh board through the sole
mutator `drop_piece` satisfies the gravity invariant, and on such boards
a column has an empty cell iff its top cell is empty (so the fill state
of a column is derivable from its top cell). -/
theorem reachable_boards_satisfy_gravity (g : Board) (hg : Reachable g) :
    Gravity g ∧ ∀ col < COLS, ((∃ r < ROWS, g r col = EMPTY) ↔ g 0 col = EMPTY) := by
  have hgrav : Gravity g := by
    induction hg with
    | init => exact gravity_new_board
    | step _ hd ih => exact gravity_step ih hd
  refine ⟨hgrav, fun col hc => ⟨?_, fun h0 => ⟨0, by norm_num [ROWS], h0⟩⟩⟩
  intro ⟨r, hr, hrE⟩
  by_contra h0
  exact hgrav col hc 0 r (Nat.zero_le r) hr h0 hrE

/-- Witness for C7: a concrete application of the theorem to the board
reached by one `drop_piece` call. -/
theorem reachable_boards_satisfy_gravity_witness :
    setCell new_board 5 0 PLAYER 5 0 ≠ EMPTY :=
  (reachable_boards_satisfy_gravity (setCell new_board 5 0 PLAYER)
      (Reachable.step Reachable.init (rfl :
        drop_piece new_board 0 PLAYER = some (setCell new_board 5 0 PLAYER, true)))).1
    0 (by decide) 5 5 (Nat.le_refl 5) (by decide) (by decide)

/-! ### Win detection: claim C2 -/

theorem check_win_iff (g : Board) (p : Int) : check_win g p = true ↔ HasLineOfFour g p := by
  unfold check_win HasLineOfFour
  simp only [ROWS, COLS, Bool.or_eq_true, List.any_eq_true, List.all_eq_true, List.mem_range,
    beq_iff_eq]
  constructor
  · rintro ((⟨r, hr, c, hc, h⟩ | ⟨r, hr, c, hc, h⟩) | ⟨r, hr, c, hc, h | h⟩)
    · exact Or.inl ⟨r, c, hr, by omega, h⟩
    · exact Or.inr (Or.inl ⟨r, c, by omega, hc, h⟩)
    · exact Or.inr (Or.inr (Or.inl ⟨r, c, by omega, by omega, h⟩))
    · exact Or.inr (Or.inr (Or.inr ⟨r, c, by omega, by omega, h⟩))
  · rintro (⟨r, c, hr, hc, h⟩ | ⟨r, c, hr, hc, h⟩ | ⟨r, c, hr, hc, h⟩ | ⟨r, c, hr, hc, h⟩)
    · exact Or.inl (Or.inl ⟨r, hr, c, by omega, h⟩)
    · exact Or.inl (Or.inr ⟨r, by omega, c, hc, h⟩)
    · exact Or.inr ⟨r, by omega, c, by omega, Or.inl h⟩
    · exact Or.inr ⟨r, by omega, c, by omega, Or.inr h⟩

/-- C2: for every board and every side, `check_win` returns `true` iff
some horizontal, vertical, down-right-diagonal or up-right-diagonal run
of four consecutive cells is entirely occupied by that side (`check_win`
is a pure function of the board, so it has no side effects), and it
returns `false` for both sides on the empty board. -/
theorem check_win_true_iff_has_line_of_four :
    (∀ (g : Board) (side : Int), check_win g side = true ↔ HasLineOfFour g side) ∧
    check_win new_board PLAYER = false ∧ check_win new_board BOT = false :=
  ⟨check_win_iff, by decide, by decide⟩

/-! ### Rendering: claim C9 -/

theorem join_cons (a : String) (l : List String) :
    String.join (a :: l) = a ++ String.join l := by
  apply String.ext
  simp [String.join_eq, String.data_append]

theorem intercalate_go_spec (s : String) (t : List String) : ∀ acc : String,
    String.intercalate.go acc s t = acc ++ String.join (t.map fun x => s ++ x) := by
  induction t with
  | nil =>
    intro acc
    simp [String.intercalate.go, String.join, String.append_empty]
  | cons b t ih =>
    intro acc
    rw [show String.intercalate.go acc s (b :: t) = String.intercalate.go (acc ++ s ++ b) s t
        from rfl, ih]
    simp [join_cons, String.append_assoc]

theorem join_map_space (l : List String) (h : l ≠ []) :
    String.join (l.map fun x => " " ++ x) = " " ++ String.intercalate " " l := by
  cases l with
  | nil => exact absurd rfl h
  | cons a t =>
    rw [show String.intercalate " " (a :: t) = String.intercalate.go a " " t from rfl,
      intercalate_go_spec, List.map_cons, join_cons, String.append_assoc]

/-- C9: rendering is a pure function of the board (hence deterministic)
producing, for each of the `ROWS` rows, one `"\n"`-terminated line whose
per-cell glyphs are separated by a single space (each line carries one
leading space, as written by the Rust `write!(f, " {}", …)`), and the
three glyphs for `EMPTY` / `PLAYER` / `BOT` are the fixed distinct
strings `"."`, `"o"`, `"x"`. -/
theorem render_one_line_per_row :
    (∀ g : Board, render g = String.join ((List.range ROWS).map fun row =>
      " " ++ String.intercalate " " ((List.range COLS).map fun col => symbol (g row col)) ++ "\n")) ∧
    symbol EMPTY = "." ∧ symbol PLAYER = "o" ∧ symbol BOT = "x" ∧
    ("." : String) ≠ "o" ∧ ("." : String) ≠ "x" ∧ ("o" : String) ≠ "x" := by
  refine ⟨fun g => ?_, by decide, by decide, by decide, by decide, by decide, by decide⟩
  unfold render
  congr 1
  apply List.map_congr_left
  intro row _
  have hmaps : ((List.range COLS).map fun col => " " ++ symbol (g row col)) =
      ((List.range COLS).map fun col => symbol (g row col)).map fun x => " " ++ x := by
    rw [List.map_map]
    rfl
  rw [hmaps, join_map_space _ (by simp [COLS])]

/-! ### The search never mutates the board: make/unmake discipline -/

theorem maxLoop_eq_pure (reward : Int) (recur : Board → Int → Int → Int × Board)
    (precur : Board → Int → Int → Int)
    (hrec : ∀ g a b, recur g a b = (precur g a b, g)) :
    ∀ (L : List Nat) (g : Board) (alpha beta best : Int),
      maxLoop reward recur g alpha beta best L =
        (abMaxLoop reward precur g alpha beta best L, g) := by
  intro L
  induction L with
  | nil =>
    intro g alpha beta best
    rfl
  | cons col rest ih =>
    intro g alpha beta best
    cases hf : findRow g col with
    | none =>
      simp only [maxLoop, abMaxLoop, hf]
      exact ih g alpha beta best
    | some row =>
      obtain ⟨-, hemp, -⟩ := findRow_some hf
      simp only [maxLoop, abMaxLoop, hf]
      by_cases hw : check_win (setCell g row col BOT) BOT
      · rw [if_pos hw, if_pos hw]
        dsimp only
        rw [setCell_cancel BOT hemp]
        split_ifs with hb
        · rfl
        · exact ih g _ beta _
      · rw [if_neg hw, if_neg hw, hrec]
        dsimp only
        rw [setCell_cancel BOT hemp]
        split_ifs with hb
        · rfl
        · exact ih g _ beta _

theorem minLoop_eq_pure (reward : Int) (recur : Board → Int → Int → Int × Board)
    (precur : Board → Int → Int → Int)
    (hrec : ∀ g a b, recur g a b = (precur g a b, g)) :
    ∀ (L : List Nat) (g : Board) (alpha beta best : Int),
      minLoop reward recur g alpha beta best L =
        (abMinLoop reward precur g alpha beta best L, g) := by
  intro L
  induction L with
  | nil =>
    intro g alpha beta best
    rfl
  | cons col rest ih =>
    intro g alpha beta best
    cases hf : findRow g col with
    | none =>
      simp only [minLoop, abMinLoop, hf]
      exact ih g alpha beta best
    | some row =>
      obtain ⟨-, hemp, -⟩ := findRow_some hf
      simp only [minLoop, abMinLoop, hf]
      by_cases hw : check_win (setCell g row col PLAYER) PLAYER
      · rw [if_pos hw, if_pos hw]
        dsimp only
        rw [setCell_cancel PLAYER hemp]
        split_ifs with hb
        · rfl
        · exact ih g alpha _ _
      · rw [if_neg hw, if_neg hw, hrec]
        dsimp only
        rw [setCell_cancel PLAYER hemp]
        split_ifs with hb
        · rfl
        · exact ih g alpha _ _

theorem minimax_eq_pure (reward : Int) :
    ∀ (d : Nat) (g : Board) (alpha beta : Int) (isMax : Bool),
      minimax reward d g alpha beta isMax = (abScore reward d g alpha beta isMax, g) := by
  intro d
  induction d with
  | zero =>
    intro g alpha beta m
    rfl
  | succ d ih =>
    intro g alpha beta m
    by_cases hv : get_valid_moves g = []
    · simp [minimax, abScore, hv]
    · cases m with
      | true =>
        simp only [minimax, abScore, if_neg hv, if_true]
        exact maxLoop_eq_pure reward _ _ (fun g1 a b => ih g1 a b false) _ g alpha beta intMin
      | false =>
        simp only [minimax, abScore, if_neg hv, Bool.false_eq_true, if_false]
        exact minLoop_eq_pure reward _ _ (fun g1 a b => ih g1 a b true) _ g alpha beta intMax

theorem minimax_board (reward : Int) (d : Nat) (g : Board) (alpha beta : Int) (isMax : Bool) :
    (minimax reward d g alpha beta isMax).2 = g := by
  rw [minimax_eq_pure]

theorem minimax_score (reward : Int) (d : Nat) (g : Board) (alpha beta : Int) (isMax : Bool) :
    (minimax reward d g alpha beta isMax).1 = abScore reward d g alpha beta isMax := by
  rw [minimax_eq_pure]

theorem bestMoveAux_board (reward : Int) (maxDepth : Nat) :
    ∀ (L : List Nat) (g : Board) (bs : Int) (bm : List Nat),
      (bestMoveAux reward maxDepth g bs bm L).2.2 = g := by
  intro L
  induction L with
  | nil =>
    intro g bs bm
    rfl
  | cons col rest ih =>
    intro g bs bm
    cases hf : findRow g col with
    | none =>
      simp only [bestMoveAux, hf]
      exact ih g bs bm
    | some row =>
      obtain ⟨-, hemp, -⟩ := findRow_some hf
      simp only [bestMoveAux, hf]
      rw [minimax_eq_pure]
      dsimp only
      rw [setCell_cancel BOT hemp]
      split_ifs with h1 h2
      · exact ih g _ _
      · exact ih g _ _
      · exact ih g _ _

/-- C6: the search engine follows a strict make/unmake discipline.  After
any `minimax` call the threaded board is cell-for-cell the board passed
in (every placement made during search is undone), and the working copy
`game_clone` driven by `get_best_move` ends identical to the input board
(in the Rust code `get_best_move` additionally only ever touches that
clone, never the caller's board, which it takes by shared reference). -/
theorem search_preserves_board :
    (∀ (reward : Int) (d : Nat) (g : Board) (alpha beta : Int) (isMax : Bool),
      (minimax reward d g alpha beta isMax).2 = g) ∧
    (∀ (reward : Int) (d : Nat) (g : Board),
      (bestMoveAux reward d g intMin [] (get_valid_moves g)).2.2 = g) :=
  ⟨fun reward d g alpha beta isMax => minimax_board reward d g alpha beta isMax,
   fun reward d g => bestMoveAux_board reward d (get_valid_moves g) g intMin []⟩

/-! ### The score returned by the evaluator is -reward, 0 or reward -/

theorem mem_get_valid_moves {g : Board} {c : Nat} :
    c ∈ get_valid_moves g ↔ c < COLS ∧ g 0 c = EMPTY := by
  simp [get_valid_moves, List.mem_filter, List.mem_range]

theorem abMaxLoop_range (recur : Board → Int → Int → Int) (g : Board)
    (hrec : ∀ g' a b, recur g' a b = -100 ∨ recur g' a b = 0 ∨ recur g' a b = 100) :
    ∀ (L : List Nat) (alpha beta best : Int),
      (best = intMin ∨ best = -100 ∨ best = 0 ∨ best = 100) →
      (best ≠ intMin ∨ ∃ c ∈ L, findRow g c ≠ none) →
      (abMaxLoop 100 recur g alpha beta best L = -100 ∨
        abMaxLoop 100 recur g alpha beta best L = 0 ∨
        abMaxLoop 100 recur g alpha beta best L = 100) := by
  intro L
  induction L with
  | nil =>
    intro alpha beta best h1 h2
    rcases h1 with rfl | h1
    · rcases h2 with h2 | ⟨c, hc, -⟩
      · exact absurd rfl h2
      · exact absurd hc (List.not_mem_nil c)
    · simpa [abMaxLoop] using h1
  | cons col rest ih =>
    intro alpha beta best h1 h2
    cases hf : findRow g col with
    | none =>
      simp only [abMaxLoop, hf]
      refine ih alpha beta best h1 ?_
      rcases h2 with h2 | ⟨c, hc, hcr⟩
      · exact Or.inl h2
      · rcases List.mem_cons.mp hc with rfl | hc
        · exact absurd hf hcr
        · exact Or.inr ⟨c, hc, hcr⟩
    | some row =>
      simp only [abMaxLoop, hf]
      set s : Int := if check_win (setCell g row col BOT) BOT then 100
        else recur (setCell g row col BOT) alpha beta with hs
      have hsr : s = -100 ∨ s = 0 ∨ s = 100 := by
        rw [hs]
        split_ifs
        · exact Or.inr (Or.inr rfl)
        · exact hrec _ _ _
      have hbs : max best s = -100 ∨ max best s = 0 ∨ max best s = 100 := by
        rcases h1 with rfl | h1
        · rw [max_eq_right]
          · exact hsr
          · rcases hsr with h | h | h <;> rw [h] <;> decide
        · rcases max_choice best s with h | h <;> rw [h]
          · exact h1
          · exact hsr
      split_ifs with hb
      · exact hbs
      · refine ih (max alpha s) beta (max best s) (Or.inr hbs) (Or.inl ?_)
        rcases hbs with h | h | h <;> rw [h] <;> decide

theorem abMinLoop_range (recur : Board → Int → Int → Int) (g : Board)
    (hrec : ∀ g' a b, recur g' a b = -100 ∨ recur g' a b = 0 ∨ recur g' a b = 100) :
    ∀ (L : List Nat) (alpha beta best : Int),
      (best = intMax ∨ best = -100 ∨ best = 0 ∨ best = 100) →
      (best ≠ intMax ∨ ∃ c ∈ L, findRow g c ≠ none) →
      (abMinLoop 100 recur g alpha beta best L = -100 ∨
        abMinLoop 100 recur g alpha beta best L = 0 ∨
        abMinLoop 100 recur g alpha beta best L = 100) := by
  intro L
  induction L with
  | nil =>
    intro alpha beta best h1 h2
    rcases h1 with rfl | h1
    · rcases h2 with h2 | ⟨c, hc, -⟩
      · exact absurd rfl h2
      · exact absurd hc (List.not_mem_nil c)
    · simpa [abMinLoop] using h1
  | cons col rest ih =>
    intro alpha beta best h1 h2
    cases hf : findRow g col with
    | none =>
      simp only [abMinLoop, hf]
      refine ih alpha beta best h1 ?_
      rcases h2 with h2 | ⟨c, hc, hcr⟩
      · exact Or.inl h2
      · rcases List.mem_cons.mp hc with rfl | hc
        · exact absurd hf hcr
        · exact Or.inr ⟨c, hc, hcr⟩
    | some row =>
      simp only [abMinLoop, hf]
      set s : Int := if check_win (setCell g row col PLAYER) PLAYER then -100
        else recur (setCell g row col PLAYER) alpha beta with hs
      have hsr : s = -100 ∨ s = 0 ∨ s = 100 := by
        rw [hs]
        split_ifs
        · exact Or.inl rfl
        · exact hrec _ _ _
      have hbs : min best s = -100 ∨ min best s = 0 ∨ min best s = 100 := by
        rcases h1 with rfl | h1
        · rw [min_eq_right]
          · exact hsr
          · rcases hsr with h | h | h <;> rw [h] <;> decide
        · rcases min_choice best s with h | h <;> rw [h]
          · exact h1
          · exact hsr
      split_ifs with hb
      · exact hbs
      · refine ih alpha (min beta s) (min best s) (Or.inr hbs) (Or.inl ?_)
        rcases hbs with h | h | h <;> rw [h] <;> decide

theorem exists_row_of_valid_ne_nil {g : Board} (hv : get_valid_moves g ≠ []) :
    ∃ c ∈ get_valid_moves g, findRow g c ≠ none := by
  obtain ⟨c, hc⟩ := List.exists_mem_of_ne_nil _ hv
  obtain ⟨-, htop⟩ := mem_get_valid_moves.mp hc
  obtain ⟨row, hrow⟩ := findRow_isSome_of_top_empty htop
  exact ⟨c, hc, by simp [hrow]⟩

theorem abScore_range :
    ∀ (d : Nat) (g : Board) (alpha beta : Int) (isMax : Bool),
      abScore 100 d g alpha beta isMax = -100 ∨ abScore 100 d g alpha beta isMax = 0 ∨
        abScore 100 d g alpha beta isMax = 100 := by
  intro d
  induction d with
  | zero =>
    intro g alpha beta m
    exact Or.inr (Or.inl rfl)
  | succ d ih =>
    intro g alpha beta m
    by_cases hv : get_valid_moves g = []
    · simp [abScore, hv]
    · cases m with
      | true =>
        simp only [abScore, if_neg hv, if_true]
        exact abMaxLoop_range _ g (fun g' a b => ih g' a b false) _ alpha beta intMin
          (Or.inl rfl) (Or.inr (exists_row_of_valid_ne_nil hv))
      | false =>
        simp only [abScore, if_neg hv, Bool.false_eq_true, if_false]
        exact abMinLoop_range _ g (fun g' a b => ih g' a b true) _ alpha beta intMax
          (Or.inl rfl) (Or.inr (exists_row_of_valid_ne_nil hv))

/-- C10: with the constructed reward 100, the score returned by `minimax`
is always one of -100, 0, 100 — for every board, depth, window and side
to move — and in particular the internal sentinels `i32::MIN` / `i32::MAX`
are never returned (whenever moves exist, the first playable branch is
always evaluated before any pruning `break`). -/
theorem minimax_score_is_terminal_value :
    ∀ (d : Nat) (g : Board) (alpha beta : Int) (isMax : Bool),
      ((minimax 100 d g alpha beta isMax).1 = -100 ∨ (minimax 100 d g alpha beta isMax).1 = 0 ∨
        (minimax 100 d g alpha beta isMax).1 = 100) ∧
      (minimax 100 d g alpha beta isMax).1 ≠ intMin ∧
      (minimax 100 d g alpha beta isMax).1 ≠ intMax := by
  intro d g alpha beta m
  rw [minimax_score]
  refine ⟨abScore_range d g alpha beta m, ?_, ?_⟩ <;>
    rcases abScore_range d g alpha beta m with h | h | h <;> rw [h] <;> decide

/-! ### Pruning does not change the score: claim C3 -/

theorem optFold_max_acc (q : Nat → Option Int) :
    ∀ (L : List Nat) (a b : Int), optFold max q (max a b) L = max a (optFold max q b L) := by
  intro L
  induction L with
  | nil =>
    intro a b
    rfl
  | cons c rest ih =>
    intro a b
    cases hq : q c with
    | none =>
      simp only [optFold, hq]
      exact ih a b
    | some v =>
      simp only [optFold, hq]
      rw [max_assoc]
      exact ih a (max b v)

theorem optFold_min_acc (q : Nat → Option Int) :
    ∀ (L : List Nat) (a b : Int), optFold min q (min a b) L = min a (optFold min q b L) := by
  intro L
  induction L with
  | nil =>
    intro a b
    rfl
  | cons c rest ih =>
    intro a b
    cases hq : q c with
    | none =>
      simp only [optFold, hq]
      exact ih a b
    | some v =>
      simp only [optFold, hq]
      rw [min_assoc]
      exact ih a (min b v)

theorem le_optFold_max (q : Nat → Option Int) :
    ∀ (L : List Nat) (b : Int), b ≤ optFold max q b L := by
  intro L
  induction L with
  | nil =>
    intro b
    exact le_refl b
  | cons c rest ih =>
    intro b
    cases hq : q c with
    | none =>
      simp only [optFold, hq]
      exact ih b
    | some v =>
      simp only [optFold, hq]
      exact le_trans (le_max_left b v) (ih (max b v))

theorem optFold_min_le (q : Nat → Option Int) :
    ∀ (L : List Nat) (b : Int), optFold min q b L ≤ b := by
  intro L
  induction L with
  | nil =>
    intro b
    exact le_refl b
  | cons c rest ih =>
    intro b
    cases hq : q c with
    | none =>
      simp only [optFold, hq]
      exact ih b
    | some v =>
      simp only [optFold, hq]
      exact le_trans (ih (min b v)) (min_le_left b v)

theorem optFold_max_mono (q : Nat → Option Int) :
    ∀ (L : List Nat) {a b : Int}, a ≤ b → optFold max q a L ≤ optFold max q b L := by
  intro L
  induction L with
  | nil =>
    intro a b h
    exact h
  | cons c rest ih =>
    intro a b h
    cases hq : q c with
    | none =>
      simp only [optFold, hq]
      exact ih h
    | some v =>
      simp only [optFold, hq]
      exact ih (max_le_max h (le_refl v))

theorem optFold_min_mono (q : Nat → Option Int) :
    ∀ (L : List Nat) {a b : Int}, a ≤ b → optFold min q a L ≤ optFold min q b L := by
  intro L
  induction L with
  | nil =>
    intro a b h
    exact h
  | cons c rest ih =>
    intro a b h
    cases hq : q c with
    | none =>
      simp only [optFold, hq]
      exact ih h
    | some v =>
      simp only [optFold, hq]
      exact ih (min_le_min h (le_refl v))

theorem plain_fold_max_eq_optFold (reward : Int) (d : Nat) (g : Board) :
    ∀ (L : List Nat) (best : Int),
      L.foldl (fun best col =>
        match findRow g col with
        | none => best
        | some row =>
          max best (if check_win (setCell g row col BOT) BOT then reward
                    else plain_minimax reward d (setCell g row col BOT) false)) best =
      optFold max (fun col => (findRow g col).map fun row =>
        if check_win (setCell g row col BOT) BOT then reward
        else plain_minimax reward d (setCell g row col BOT) false) best L := by
  intro L
  induction L with
  | nil =>
    intro best
    rfl
  | cons c rest ih =>
    intro best
    cases hf : findRow g c with
    | none =>
      simp only [List.foldl_cons, optFold, hf, Option.map_none']
      exact ih best
    | some row =>
      simp only [List.foldl_cons, optFold, hf, Option.map_some']
      exact ih _

theorem plain_fold_min_eq_optFold (reward : Int) (d : Nat) (g : Board) :
    ∀ (L : List Nat) (best : Int),
      L.foldl (fun best col =>
        match findRow g col with
        | none => best
        | some row =>
          min best (if check_win (setCell g row col PLAYER) PLAYER then -reward
                    else plain_minimax reward d (setCell g row col PLAYER) true)) best =
      optFold min (fun col => (findRow g col).map fun row =>
        if check_win (setCell g row col PLAYER) PLAYER then -reward
        else plain_minimax reward d (setCell g row col PLAYER) true) best L := by
  intro L
  induction L with
  | nil =>
    intro best
    rfl
  | cons c rest ih =>
    intro best
    cases hf : findRow g c with
    | none =>
      simp only [List.foldl_cons, optFold, hf, Option.map_none']
      exact ih best
    | some row =>
      simp only [List.foldl_cons, optFold, hf, Option.map_some']
      exact ih _

theorem abMaxLoop_km (reward beta : Int) (g : Board)
    (recurP : Board → Int → Int → Int) (F : Board → Int)
    (hrec : ∀ g' alpha', intMin ≤ alpha' → alpha' < beta →
      kmTriple (recurP g' alpha' beta) (F g') alpha' beta) :
    ∀ (L : List Nat) (alpha best : Int),
      intMin ≤ alpha → alpha < beta → intMin ≤ best → best ≤ alpha →
      kmTriple (abMaxLoop reward recurP g alpha beta best L)
        (optFold max (fun col => (findRow g col).map fun row =>
          if check_win (setCell g row col BOT) BOT then reward
          else F (setCell g row col BOT)) best L) alpha beta := by
  intro L
  induction L with
  | nil =>
    intro alpha best h1 h2 h3 h4
    exact ⟨fun _ => le_refl best, fun _ _ => rfl, fun _ => le_refl best⟩
  | cons c rest ih =>
    intro alpha best hamin hab hbmin hba
    cases hf : findRow g c with
    | none =>
      simp only [abMaxLoop, optFold, hf, Option.map_none']
      exact ih alpha best hamin hab hbmin hba
    | some row =>
      simp only [abMaxLoop, optFold, hf, Option.map_some']
      set q : Nat → Option Int := fun col => (findRow g col).map fun row =>
        if check_win (setCell g row col BOT) BOT then reward
        else F (setCell g row col BOT) with hq
      set s : Int := if check_win (setCell g row c BOT) BOT then reward
        else recurP (setCell g row c BOT) alpha beta with hs
      set f : Int := if check_win (setCell g row c BOT) BOT then reward
        else F (setCell g row c BOT) with hfd
      have hsf : kmTriple s f alpha beta := by
        rw [hs, hfd]
        by_cases hw : check_win (setCell g row c BOT) BOT
        · rw [if_pos hw, if_pos hw]
          exact ⟨fun _ => le_refl _, fun _ _ => rfl, fun _ => le_refl _⟩
        · rw [if_neg hw, if_neg hw]
          exact hrec _ alpha hamin hab
      have hSbase : ∀ x : Int, intMin ≤ x →
          optFold max q x rest = max x (optFold max q intMin rest) := by
        intro x hx
        have h := optFold_max_acc q rest x intMin
        rwa [max_eq_left hx] at h
      by_cases hb : beta ≤ max alpha s
      · rw [if_pos hb]
        have hbetas : beta ≤ s := by
          rcases le_max_iff.mp hb with h | h
          · exact absurd hab (not_lt.mpr h)
          · exact h
        have hbs : best ≤ s := le_trans hba (le_trans (le_of_lt hab) hbetas)
        rw [max_eq_right hbs]
        refine ⟨fun h => absurd (lt_of_lt_of_le hab (le_trans hbetas h)) (lt_irrefl alpha),
                fun _ h2 => absurd (lt_of_le_of_lt hbetas h2) (lt_irrefl beta), fun _ => ?_⟩
        calc s ≤ f := hsf.2.2 hbetas
          _ ≤ max best f := le_max_right best f
          _ ≤ optFold max q (max best f) rest := le_optFold_max q rest _
      · rw [if_neg hb]
        have ha1b : max alpha s < beta := not_le.mp hb
        have hIH := ih (max alpha s) (max best s) (le_trans hamin (le_max_left alpha s)) ha1b
          (le_trans hbmin (le_max_left best s)) (max_le_max hba (le_refl s))
        by_cases hsa : s ≤ alpha
        · have hfs : f ≤ s := hsf.1 hsa
          have heq : max alpha s = alpha := max_eq_left hsa
          rw [heq] at hIH ⊢
          have hbsa : max best s ≤ alpha := max_le hba hsa
          refine ⟨fun h => ?_, fun h1 h2 => ?_, fun h => ?_⟩
          · exact le_trans (optFold_max_mono q rest (max_le_max (le_refl best) hfs)) (hIH.1 h)
          · have hGQ := hIH.2.1 h1 h2
            rw [hSbase (max best s) (le_trans hbmin (le_max_left best s))] at hGQ
            have hGS : abMaxLoop reward recurP g alpha beta (max best s) rest =
                optFold max q intMin rest := by
              rcases max_choice (max best s) (optFold max q intMin rest) with hch | hch
              · rw [hch] at hGQ
                exact absurd h1 (not_lt.mpr (le_trans (le_of_eq hGQ) hbsa))
              · rw [hch] at hGQ
                exact hGQ
            have haS : alpha < optFold max q intMin rest := hGS ▸ h1
            rw [hSbase (max best f) (le_trans hbmin (le_max_left best f)), hGS]
            exact (max_eq_right (le_of_lt (lt_of_le_of_lt
              (max_le hba (le_trans hfs hsa)) haS))).symm
          · have hGQ := hIH.2.2 h
            rw [hSbase (max best s) (le_trans hbmin (le_max_left best s))] at hGQ
            have hGS : abMaxLoop reward recurP g alpha beta (max best s) rest ≤
                optFold max q intMin rest := by
              rcases max_choice (max best s) (optFold max q intMin rest) with hch | hch
              · rw [hch] at hGQ
                have : beta ≤ alpha := le_trans h (le_trans hGQ hbsa)
                exact absurd hab (not_lt.mpr this)
              · rw [hch] at hGQ
                exact hGQ
            rw [hSbase (max best f) (le_trans hbmin (le_max_left best f))]
            exact le_trans hGS (le_max_right _ _)
        · push_neg at hsa
          by_cases hsb : beta ≤ s
          · exact absurd (lt_of_le_of_lt (le_trans hsb (le_max_right alpha s)) ha1b)
              (lt_irrefl beta)
          · have hseq : s = f := hsf.2.1 hsa (not_le.mp hsb)
            rw [← hseq]
            have heq : max alpha s = s := max_eq_right (le_of_lt hsa)
            rw [heq] at hIH ⊢
            refine ⟨fun h => hIH.1 (le_trans h (le_of_lt hsa)), fun h1 h2 => ?_,
              fun h => hIH.2.2 h⟩
            by_cases hGs : s < abMaxLoop reward recurP g s beta (max best s) rest
            · exact hIH.2.1 hGs h2
            · have hQG := hIH.1 (not_lt.mp hGs)
              have hsQ : s ≤ optFold max q (max best s) rest :=
                le_trans (le_max_right best s) (le_optFold_max q rest _)
              exact le_antisymm (le_trans (not_lt.mp hGs) hsQ) hQG

theorem abMinLoop_km (reward alpha : Int) (g : Board)
    (recurP : Board → Int → Int → Int) (F : Board → Int)
    (hrec : ∀ g' beta', alpha < beta' → beta' ≤ intMax →
      kmTriple (recurP g' alpha beta') (F g') alpha beta') :
    ∀ (L : List Nat) (beta best : Int),
      alpha < beta → beta ≤ intMax → beta ≤ best → best ≤ intMax →
      kmTriple (abMinLoop reward recurP g alpha beta best L)
        (optFold min (fun col => (findRow g col).map fun row =>
          if check_win (setCell g row col PLAYER) PLAYER then -reward
          else F (setCell g row col PLAYER)) best L) alpha beta := by
  intro L
  induction L with
  | nil =>
    intro beta best h1 h2 h3 h4
    exact ⟨fun _ => le_refl best, fun _ _ => rfl, fun _ => le_refl best⟩
  | cons c rest ih =>
    intro beta best hab hbmax hbb hbestmax
    cases hf : findRow g c with
    | none =>
      simp only [abMinLoop, optFold, hf, Option.map_none']
      exact ih beta best hab hbmax hbb hbestmax
    | some row =>
      simp only [abMinLoop, optFold, hf, Option.map_some']
      set q : Nat → Option Int := fun col => (findRow g col).map fun row =>
        if check_win (setCell g row col PLAYER) PLAYER then -reward
        else F (setCell g row col PLAYER) with hq
      set s : Int := if check_win (setCell g row c PLAYER) PLAYER then -reward
        else recurP (setCell g row c PLAYER) alpha beta with hs
      set f : Int := if check_win (setCell g row c PLAYER) PLAYER then -reward
        else F (setCell g row c PLAYER) with hfd
      have hsf : kmTriple s f alpha beta := by
        rw [hs, hfd]
        by_cases hw : check_win (setCell g row c PLAYER) PLAYER
        · rw [if_pos hw, if_pos hw]
          exact ⟨fun _ => le_refl _, fun _ _ => rfl, fun _ => le_refl _⟩
        · rw [if_neg hw, if_neg hw]
          exact hrec _ beta hab hbmax
      have hSbase : ∀ x : Int, x ≤ intMax →
          optFold min q x rest = min x (optFold min q intMax rest) := by
        intro x hx
        have h := optFold_min_acc q rest x intMax
        rwa [min_eq_left hx] at h
      by_cases hb : min beta s ≤ alpha
      · rw [if_pos hb]
        have hsa : s ≤ alpha := by
          rcases min_le_iff.mp hb with h | h
          · exact absurd hab (not_lt.mpr h)
          · exact h
        have hsb : s ≤ best := le_trans hsa (le_trans (le_of_lt hab) hbb)
        rw [min_eq_right hsb]
        refine ⟨fun _ => ?_, fun h1 _ => absurd (lt_of_lt_of_le h1 hsa) (lt_irrefl alpha),
                fun h => absurd (lt_of_lt_of_le hab (le_trans h hsa)) (lt_irrefl alpha)⟩
        calc optFold min q (min best f) rest ≤ min best f := optFold_min_le q rest _
          _ ≤ f := min_le_right best f
          _ ≤ s := hsf.1 hsa
      · rw [if_neg hb]
        have hab1 : alpha < min beta s := not_le.mp hb
        have hIH := ih (min beta s) (min best s) hab1 (le_trans (min_le_left beta s) hbmax)
          (min_le_min hbb (le_refl s)) (le_trans (min_le_left best s) hbestmax)
        by_cases hsb : beta ≤ s
        · have hsfle : s ≤ f := hsf.2.2 hsb
          have heq : min beta s = beta := min_eq_left hsb
          rw [heq] at hIH ⊢
          have hbsb : beta ≤ min best s := le_min hbb hsb
          refine ⟨fun h => ?_, fun h1 h2 => ?_, fun h => ?_⟩
          · have hQG := hIH.1 h
            rw [hSbase (min best s) (le_trans (min_le_left best s) hbestmax)] at hQG
            have hSG : optFold min q intMax rest ≤
                abMinLoop reward recurP g alpha beta (min best s) rest := by
              rcases min_choice (min best s) (optFold min q intMax rest) with hch | hch
              · rw [hch] at hQG
                have : beta ≤ alpha := le_trans hbsb (le_trans hQG h)
                exact absurd hab (not_lt.mpr this)
              · rw [hch] at hQG
                exact hQG
            rw [hSbase (min best f) (le_trans (min_le_left best f) hbestmax)]
            exact le_trans (min_le_right _ _) hSG
          · have hGQ := hIH.2.1 h1 h2
            rw [hSbase (min best s) (le_trans (min_le_left best s) hbestmax)] at hGQ
            have hGS : abMinLoop reward recurP g alpha beta (min best s) rest =
                optFold min q intMax rest := by
              rcases min_choice (min best s) (optFold min q intMax rest) with hch | hch
              · rw [hch] at hGQ
                exact absurd h2 (not_lt.mpr (le_trans hbsb (le_of_eq hGQ.symm)))
              · rw [hch] at hGQ
                exact hGQ
            have hSb : optFold min q intMax rest < beta := hGS ▸ h2
            rw [hSbase (min best f) (le_trans (min_le_left best f) hbestmax), hGS]
            exact (min_eq_right (le_of_lt (lt_of_lt_of_le hSb
              (le_min hbb (le_trans hsb hsfle))))).symm
          · exact le_trans (hIH.2.2 h)
              (optFold_min_mono q rest (min_le_min (le_refl best) hsfle))
        · push_neg at hsb
          by_cases hsa : s ≤ alpha
          · exact absurd (lt_of_lt_of_le hab1 (min_le_right beta s)) (not_lt.mpr hsa)
          · have hseq : s = f := hsf.2.1 (not_le.mp hsa) hsb
            rw [← hseq]
            have heq : min beta s = s := min_eq_right (le_of_lt hsb)
            rw [heq] at hIH ⊢
            refine ⟨fun h => hIH.1 h, fun h1 h2 => ?_, fun h => hIH.2.2 (le_trans (le_of_lt hsb) h)⟩
            by_cases hGs : abMinLoop reward recurP g alpha s (min best s) rest < s
            · exact hIH.2.1 h1 hGs
            · have hGQ := hIH.2.2 (not_lt.mp hGs)
              have hQs : optFold min q (min best s) rest ≤ s :=
                le_trans (optFold_min_le q rest _) (min_le_right best s)
              exact le_antisymm hGQ (le_trans hQs (not_lt.mp hGs))

theorem abScore_km (reward : Int) :
    ∀ (d : Nat) (g : Board) (alpha beta : Int) (isMax : Bool),
      intMin ≤ alpha → alpha < beta → beta ≤ intMax →
      kmTriple (abScore reward d g alpha beta isMax) (plain_minimax reward d g isMax)
        alpha beta := by
  intro d
  induction d with
  | zero =>
    intro g alpha beta m h1 h2 h3
    exact ⟨fun _ => le_refl _, fun _ _ => rfl, fun _ => le_refl _⟩
  | succ d ih =>
    intro g alpha beta m h1 h2 h3
    by_cases hv : get_valid_moves g = []
    · have e1 : abScore reward (d + 1) g alpha beta m = 0 := by simp [abScore, hv]
      have e2 : plain_minimax reward (d + 1) g m = 0 := by simp [plain_minimax, hv]
      rw [e1, e2]
      exact ⟨fun _ => le_refl 0, fun _ _ => rfl, fun _ => le_refl 0⟩
    · cases m with
      | true =>
        simp only [abScore, plain_minimax, if_neg hv, if_true]
        rw [plain_fold_max_eq_optFold]
        exact abMaxLoop_km reward beta g (fun g1 a b => abScore reward d g1 a b false)
          (fun g1 => plain_minimax reward d g1 false)
          (fun g' a' ha' hab' => ih g' a' beta false ha' hab' h3)
          (get_valid_moves g) alpha intMin h1 h2 (le_refl _) h1
      | false =>
        simp only [abScore, plain_minimax, if_neg hv, Bool.false_eq_true, if_false]
        rw [plain_fold_min_eq_optFold]
        exact abMinLoop_km reward alpha g (fun g1 a b => abScore reward d g1 a b true)
          (fun g1 => plain_minimax reward d g1 true)
          (fun g' b' hab' hb' => ih g' alpha b' true h1 hab' hb')
          (get_valid_moves g) beta intMax h2 h3 h3 (le_refl _)

/-- C3: for every board, depth and side to move, the alpha-beta evaluator
called with the full window (`alpha = i32::MIN`, `beta = i32::MAX`)
returns exactly the score of plain depth-limited minimax without pruning
on the same position: pruning never changes the returned value. -/
theorem full_window_search_eq_plain_minimax :
    ∀ (d : Nat) (g : Board) (isMax : Bool),
      (minimax 100 d g intMin intMax isMax).1 = plain_minimax 100 d g isMax := by
  intro d g m
  rw [minimax_score]
  have hk := abScore_km 100 d g intMin intMax m (le_refl _) (by decide) (le_refl _)
  rcases abScore_range d g intMin intMax m with h | h | h <;>
    exact hk.2.1 (by rw [h]; decide) (by rw [h]; decide)

/-! ### get_best_move: claim C1 -/

theorem topScore_range (dep : Nat) (g : Board) (c : Nat) {row : Nat}
    (hf : findRow g c = some row) :
    topScore 100 dep g c = -100 ∨ topScore 100 dep g c = 0 ∨ topScore 100 dep g c = 100 := by
  simp only [topScore, hf, minimax_score]
  exact abScore_range dep (setCell g row c BOT) intMin intMax false

theorem bestMoveAux_invariant (dep : Nat) (g : Board) :
    ∀ (L : List Nat) (bs : Int) (bm : List Nat), (bm = [] → bs = intMin) →
      bs ≤ (bestMoveAux 100 dep g bs bm L).1 ∧
      (∀ c ∈ L, ∀ row, findRow g c = some row →
        topScore 100 dep g c ≤ (bestMoveAux 100 dep g bs bm L).1) ∧
      ((bestMoveAux 100 dep g bs bm L).1 = bs ∨
        ∃ c ∈ L, findRow g c ≠ none ∧
          topScore 100 dep g c = (bestMoveAux 100 dep g bs bm L).1) ∧
      (∀ x ∈ (bestMoveAux 100 dep g bs bm L).2.1,
        (x ∈ bm ∧ (bestMoveAux 100 dep g bs bm L).1 = bs) ∨
        (x ∈ L ∧ findRow g x ≠ none ∧
          topScore 100 dep g x = (bestMoveAux 100 dep g bs bm L).1)) ∧
      ((bm ≠ [] ∨ ∃ c ∈ L, findRow g c ≠ none) → (bestMoveAux 100 dep g bs bm L).2.1 ≠ []) := by
  intro L
  induction L with
  | nil =>
    intro bs bm h0
    refine ⟨le_refl bs, fun c hc => absurd hc (List.not_mem_nil c), Or.inl rfl,
      fun x hx => Or.inl ⟨hx, rfl⟩, fun h => ?_⟩
    rcases h with h | ⟨c, hc, -⟩
    · exact h
    · exact absurd hc (List.not_mem_nil c)
  | cons c rest ih =>
    intro bs bm h0
    cases hf : findRow g c with
    | none =>
      have hstep : bestMoveAux 100 dep g bs bm (c :: rest) = bestMoveAux 100 dep g bs bm rest := by
        simp only [bestMoveAux, hf]
      rw [hstep]
      obtain ⟨i1, i2, i3, i4, i5⟩ := ih bs bm h0
      refine ⟨i1, fun c' hc' row hrow => ?_, ?_, fun x hx => ?_, fun h => ?_⟩
      · rcases List.mem_cons.mp hc' with rfl | hc'
        · exact absurd hrow (by simp [hf])
        · exact i2 c' hc' row hrow
      · rcases i3 with h | ⟨c0, hc0, hr0, ht0⟩
        · exact Or.inl h
        · exact Or.inr ⟨c0, List.mem_cons_of_mem c hc0, hr0, ht0⟩
      · rcases i4 x hx with h | ⟨hxL, hxr, hxt⟩
        · exact Or.inl h
        · exact Or.inr ⟨List.mem_cons_of_mem c hxL, hxr, hxt⟩
      · refine i5 ?_
        rcases h with h | ⟨c0, hc0, hr0⟩
        · exact Or.inl h
        · rcases List.mem_cons.mp hc0 with rfl | hc0
          · exact absurd hf hr0
          · exact Or.inr ⟨c0, hc0, hr0⟩
    | some row =>
      obtain ⟨-, hemp, -⟩ := findRow_some hf
      have hstep : bestMoveAux 100 dep g bs bm (c :: rest) =
          if bs < topScore 100 dep g c then
            bestMoveAux 100 dep g (topScore 100 dep g c) [c] rest
          else if topScore 100 dep g c = bs then bestMoveAux 100 dep g bs (bm ++ [c]) rest
          else bestMoveAux 100 dep g bs bm rest := by
        simp only [bestMoveAux, hf]
        rw [minimax_eq_pure]
        dsimp only
        rw [setCell_cancel BOT hemp]
        simp only [topScore, hf, minimax_score]
      have hcr : findRow g c ≠ none := by simp [hf]
      have hts := topScore_range dep g c hf
      have htsmin : intMin < topScore 100 dep g c := by
        rcases hts with h | h | h <;> rw [h] <;> decide
      rw [hstep]
      split_ifs with h1 h2
      · obtain ⟨i1, i2, i3, i4, i5⟩ := ih (topScore 100 dep g c) [c] (by intro h; cases h)
        refine ⟨le_trans (le_of_lt h1) i1, fun c' hc' row' hrow' => ?_, ?_, fun x hx => ?_,
          fun _ => i5 (Or.inl (by simp))⟩
        · rcases List.mem_cons.mp hc' with rfl | hc'
          · exact i1
          · exact i2 c' hc' row' hrow'
        · rcases i3 with h | ⟨c0, hc0, hr0, ht0⟩
          · exact Or.inr ⟨c, List.mem_cons_self c rest, hcr, h.symm ▸ rfl⟩
          · exact Or.inr ⟨c0, List.mem_cons_of_mem c hc0, hr0, ht0⟩
        · rcases i4 x hx with ⟨hxm, hbe⟩ | ⟨hxL, hxr, hxt⟩
          · have hxc : x = c := by simpa using hxm
            subst hxc
            exact Or.inr ⟨List.mem_cons_self x rest, hcr, hbe.symm⟩
          · exact Or.inr ⟨List.mem_cons_of_mem c hxL, hxr, hxt⟩
      · obtain ⟨i1, i2, i3, i4, i5⟩ := ih bs (bm ++ [c]) (by simp)
        refine ⟨i1, fun c' hc' row' hrow' => ?_, ?_, fun x hx => ?_,
          fun _ => i5 (Or.inl (by simp))⟩
        · rcases List.mem_cons.mp hc' with rfl | hc'
          · rw [h2]
            exact i1
          · exact i2 c' hc' row' hrow'
        · rcases i3 with h | ⟨c0, hc0, hr0, ht0⟩
          · exact Or.inl h
          · exact Or.inr ⟨c0, List.mem_cons_of_mem c hc0, hr0, ht0⟩
        · rcases i4 x hx with ⟨hxm, hbe⟩ | ⟨hxL, hxr, hxt⟩
          · rcases List.mem_append.mp hxm with hxm | hxm
            · exact Or.inl ⟨hxm, hbe⟩
            · have hxc : x = c := by simpa using hxm
              subst hxc
              exact Or.inr ⟨List.mem_cons_self x rest, hcr, by rw [h2, hbe]⟩
          · exact Or.inr ⟨List.mem_cons_of_mem c hxL, hxr, hxt⟩
      · have h3 : topScore 100 dep g c < bs := by
          rcases lt_trichotomy (topScore 100 dep g c) bs with h | h | h
          · exact h
          · exact absurd h h2
          · exact absurd h (not_lt.mpr (not_lt.mp h1))
        obtain ⟨i1, i2, i3, i4, i5⟩ := ih bs bm h0
        refine ⟨i1, fun c' hc' row' hrow' => ?_, ?_, fun x hx => ?_, fun h => ?_⟩
        · rcases List.mem_cons.mp hc' with rfl | hc'
          · exact le_trans (le_of_lt h3) i1
          · exact i2 c' hc' row' hrow'
        · rcases i3 with h | ⟨c0, hc0, hr0, ht0⟩
          · exact Or.inl h
          · exact Or.inr ⟨c0, List.mem_cons_of_mem c hc0, hr0, ht0⟩
        · rcases i4 x hx with h | ⟨hxL, hxr, hxt⟩
          · exact Or.inl h
          · exact Or.inr ⟨List.mem_cons_of_mem c hxL, hxr, hxt⟩
        · refine i5 (Or.inl ?_)
          intro hbm
          rw [h0 hbm] at h3
          exact absurd h3 (not_lt.mpr (le_of_lt htsmin))

/-- C1: `get_best_move` (the `best_moves` vector from which the Rust code
draws one uniformly random element, so the call returns `Some` column iff
this list is non-empty) is non-empty exactly when a legal move exists,
and every column in it is a legal move whose top-level score — one
`minimax` call at `max_depth` with the opponent to move and the full
alpha-beta window, after placing the bot's piece — is maximal among all
legal moves. -/
theorem get_best_move_legal_and_maximal (dep : Nat) (g : Board) :
    (get_best_move 100 dep g = [] ↔ get_valid_moves g = []) ∧
    ∀ c ∈ get_best_move 100 dep g, c ∈ get_valid_moves g ∧
      ∀ c' ∈ get_valid_moves g, topScore 100 dep g c' ≤ topScore 100 dep g c := by
  unfold get_best_move
  obtain ⟨i1, i2, i3, i4, i5⟩ :=
    bestMoveAux_invariant dep g (get_valid_moves g) intMin [] (fun _ => rfl)
  constructor
  · constructor
    · intro h
      by_contra hv
      exact i5 (Or.inr (exists_row_of_valid_ne_nil hv)) h
    · intro hv
      rw [hv]
      rfl
  · intro c hc
    rcases i4 c hc with ⟨hcm, -⟩ | ⟨hcL, -, hts⟩
    · exact absurd hcm (List.not_mem_nil c)
    · refine ⟨hcL, fun c' hc' => ?_⟩
      rw [hts]
      obtain ⟨-, htop⟩ := mem_get_valid_moves.mp hc'
      obtain ⟨row', hrow'⟩ := findRow_isSome_of_top_empty htop
      exact i2 c' hc' row' hrow'

/-- Witness for C1 at a concrete input: on the empty board at depth 0,
column 0 is among the returned moves, it is legal, and its top-level
score is maximal (compared here against column 3). -/
theorem get_best_move_legal_and_maximal_witness :
    0 ∈ get_best_move 100 0 new_board ∧ 0 ∈ get_valid_moves new_board ∧
      topScore 100 0 new_board 3 ≤ topScore 100 0 new_board 0 := by
  have h := (get_best_move_legal_and_maximal 0 new_board).2 0 (by decide)
  exact ⟨by decide, h.1, h.2 3 (by decide)⟩

/-! ### Claim C8 fails on the code: the bot can decline an immediate win -/

/-- Evaluation of the code at the failing input for C8.  On `c8Board` the
bot (to move) can win immediately in column 3 (placing at row 5 completes
`x x x x` on the bottom row), yet `get_best_move` with `max_depth = 1`
returns exactly `[4]` — the blocking move, which does not win.  The cause:
`minimax` never tests whether the game is already won at the node it
enters, so after the bot's winning placement the search goes on and lets
the (already defeated) opponent complete its own four in column 4,
scoring the winning column at `-reward = -100` while the blocking column
scores `0`. -/
theorem get_best_move_skips_immediate_win :
    3 ∈ get_valid_moves c8Board ∧
    drop_piece c8Board 3 BOT = some (setCell c8Board 5 3 BOT, true) ∧
    check_win (setCell c8Board 5 3 BOT) BOT = true ∧
    check_win (setCell c8Board 2 4 BOT) BOT = false ∧
    get_best_move 100 1 c8Board = [4] ∧
    topScore 100 1 c8Board 3 = -100 ∧
    topScore 100 1 c8Board 4 = 0 :=
  ⟨by decide, rfl, by decide, by decide, by decide, by decide, by decide⟩

end ConnectFour
